import Mathlib

/-
  Verification development for the `cattocol` text-combining library
  (src/src/lib.rs).

  Shallow embedding conventions:
  * A text (Rust `&str`) is a `List Char` (its sequence of code points).
  * `strLines` embeds Rust `str::lines`: split at line feeds, a trailing
    line feed does not produce a trailing empty line.
  * Each combine function returns the flat ordered list of borrowed text
    fragments that the Rust iterator yields; the final combined text is the
    `join` of that list.
  * The stateful Rust iterators that advance a second (third, fourth) line
    iterator once per line of the first text are embedded as lockstep
    recursions on the line lists (`byLinesGo`, `byPairsGo`, ...).
  * The external crate `strip_ansi_escapes` (not part of this repository's
    sources) is modelled from the spec, see `stripStep` below.
-/

set_option autoImplicit false

/-- One splitting step of a character list at every line feed; the result is
always a non-empty list of line-feed-free segments. -/
def splitNl : List Char → List (List Char)
  | [] => [[]]
  | c :: cs =>
      if c = '\n' then [] :: splitNl cs
      else (c :: (splitNl cs).headD []) :: (splitNl cs).tail

/-- Drop a single trailing empty segment, as Rust `str::lines` does for a
text that ends with a line feed. -/
def dropLastEmpty : List (List Char) → List (List Char)
  | [] => []
  | [l] => if l = [] then [] else [l]
  | l :: ls => l :: dropLastEmpty ls

/-- Embedding of Rust `str::lines`: lines are the segments between line
feeds and a trailing line feed yields no trailing empty line. -/
def strLines (text : List Char) : List (List Char) :=
  dropLastEmpty (splitNl text)

/-- Embedding of `max_line_len` (src/src/lib.rs:461-466): the maximum
code-point count over the lines of a text, `0` for an empty text. -/
def max_line_len (text : List Char) : Nat :=
  ((strLines text).map List.length).foldr Nat.max 0

/-- Parser state of the escape-sequence stripper. -/
inductive EscState : Type
  | ground : EscState
  | escape : EscState
  | csi : EscState
deriving DecidableEq

/-- Modelled from the spec: the external `strip_ansi_escapes::strip` used by
`max_line_len_no_esc` is not part of this repository's sources.  Per the
spec (section 4.1) it removes all recognized terminal-formatting escape
sequences, which are treated as zero-width, and leaves the visible
characters; a line feed is never part of a formatting sequence.  One
character step: in the ground state `ESC` opens a sequence; after `ESC`, `[`
opens a CSI sequence whose parameter bytes are consumed up to a final byte
in `0x40`-`0x7e`; any other byte after `ESC` is consumed as a two-character
escape; a line feed always returns to the ground state and is kept. -/
def stripStep : EscState → Char → EscState × List Char
  | EscState.ground, c =>
      if c = '\x1b' then (EscState.escape, []) else (EscState.ground, [c])
  | EscState.escape, c =>
      if c = '\n' then (EscState.ground, ['\n'])
      else if c = '[' then (EscState.csi, [])
      else (EscState.ground, [])
  | EscState.csi, c =>
      if c = '\n' then (EscState.ground, ['\n'])
      else if 0x40 ≤ c.toNat ∧ c.toNat ≤ 0x7e then (EscState.ground, [])
      else (EscState.csi, [])

/-- Modelled from the spec: run the stripper over a text from a given
state, concatenating the emitted characters. -/
def stripAccum : EscState → List Char → List Char
  | _, [] => []
  | s, c :: cs => (stripStep s c).2 ++ stripAccum (stripStep s c).1 cs

/-- Modelled from the spec: strip all recognized terminal-formatting escape
sequences from a text (`strip_ansi_escapes::strip`, an external crate). -/
def strip (text : List Char) : List Char :=
  stripAccum EscState.ground text

/-- Embedding of `max_line_len_no_esc` (src/src/lib.rs:469-471): measure
after stripping escape sequences.  In this code-point embedding the
stripped text is always valid text, so the two `unwrap`s of the source are
the identity. -/
def max_line_len_no_esc (text : List Char) : Nat :=
  max_line_len (strip text)

/-- The value of Rust `usize::MAX` used by `by_pairs`. -/
def usizeMAX : Nat := 18446744073709551615

/-- Embedding of the `CatToCol` configuration (src/src/lib.rs:58-61): the
fill character and its repetition count (source field name `repeat`, a Lean
keyword, is rendered `repeatCount`). -/
structure CatToCol : Type where
  fill : Char
  repeatCount : Nat
deriving DecidableEq

/-- Embedding of `CatToCol::combine_col` (src/src/lib.rs:90-120): zip the
two line sequences; each paired line yields the first line, `just_len +
repeat` copies of the fill character where `just_len = max_line_one -
max_line_len(line)`, the second line and a line feed; then block1 leftovers
bare, then block2 leftovers prefixed by `max_line_one + repeat` fills. -/
def CatToCol.combine_col (self : CatToCol) (strOne strTwo : List Char) :
    List (List Char) :=
  let maxLineOne := max_line_len strOne
  let iterOne := strLines strOne
  let iterTwo := strLines strTwo
  let lenMin := min iterOne.length iterTwo.length
  ((iterOne.zip iterTwo).flatMap fun item =>
      [item.1] ++
        List.replicate ((maxLineOne - max_line_len item.1) + self.repeatCount)
          [self.fill] ++ [item.2] ++ [['\n']]) ++
    ((iterOne.drop lenMin).flatMap fun line => [line, ['\n']]) ++
    ((iterTwo.drop lenMin).flatMap fun line =>
      List.replicate (maxLineOne + self.repeatCount) [self.fill] ++
        [line, ['\n']])

/-- Embedding of `CatToCol::combine_col_esc` (src/src/lib.rs:126-156): the
same as `combine_col` but all width measurements use
`max_line_len_no_esc`. -/
def CatToCol.combine_col_esc (self : CatToCol) (strOne strTwo : List Char) :
    List (List Char) :=
  let maxLineOne := max_line_len_no_esc strOne
  let iterOne := strLines strOne
  let iterTwo := strLines strTwo
  let lenMin := min iterOne.length iterTwo.length
  ((iterOne.zip iterTwo).flatMap fun item =>
      [item.1] ++
        List.replicate
          ((maxLineOne - max_line_len_no_esc item.1) + self.repeatCount)
          [self.fill] ++ [item.2] ++ [['\n']]) ++
    ((iterOne.drop lenMin).flatMap fun line => [line, ['\n']]) ++
    ((iterTwo.drop lenMin).flatMap fun line =>
      List.replicate (maxLineOne + self.repeatCount) [self.fill] ++
        [line, ['\n']])

/-- Embedding of `cat_to_col` (src/src/lib.rs:182-205): paired lines joined
by a single literal space, leftovers of either block emitted bare. -/
def cat_to_col (strOne strTwo : List Char) : List (List Char) :=
  let iterOne := strLines strOne
  let iterTwo := strLines strTwo
  let lenMin := min iterOne.length iterTwo.length
  ((iterOne.zip iterTwo).flatMap fun item =>
      [item.1, [' '], item.2, ['\n']]) ++
    ((iterOne.drop lenMin).flatMap fun line => [line, ['\n']]) ++
    ((iterTwo.drop lenMin).flatMap fun line => [line, ['\n']])

/-- Lockstep recursion embedding the stateful iterator of `by_lines`
(src/src/lib.rs:230-254).  For each first line, the second iterator is
advanced once; `headD []` renders the `""` used when it is exhausted, and
`space_take` is `1` exactly when a second line was produced and both lines
are non-empty.  `second_line.lines()` is `strLines sLine`, which emits the
line exactly when it is non-empty. -/
def byLinesGo : List (List Char) → List (List Char) → List (List Char)
  | [], _ => []
  | f :: fs, ss =>
      let sLine := ss.headD []
      let spaceTake := if f ≠ [] ∧ sLine ≠ [] then 1 else 0
      [f] ++ List.replicate spaceTake [' '] ++ strLines sLine ++ [['\n']] ++
        byLinesGo fs ss.tail

/-- Embedding of `by_lines` (src/src/lib.rs:230-254). -/
def by_lines (firstStr secondStr : List Char) : List (List Char) :=
  byLinesGo (strLines firstStr) (strLines secondStr)

/-- Lockstep recursion embedding the stateful iterator of `by_pairs`
(src/src/lib.rs:278-303).  `takes` is `usize::MAX` when a second line was
produced, then forced to `0` when either line is empty (an exhausted second
iterator yields `""`, which is empty); the whole per-line fragment chain is
truncated by `take takes`. -/
def byPairsGo : List (List Char) → List (List Char) → List (List Char)
  | [], _ => []
  | f :: fs, ss =>
      let sLine := ss.headD []
      let takes := if f = [] ∨ sLine = [] then 0 else usizeMAX
      ([f] ++ [[' ']] ++ strLines sLine ++ [['\n']]).take takes ++
        byPairsGo fs ss.tail

/-- Embedding of `by_pairs` (src/src/lib.rs:278-303). -/
def by_pairs (firstStr secondStr : List Char) : List (List Char) :=
  byPairsGo (strLines firstStr) (strLines secondStr)

/-- Lockstep recursion embedding `by_three_lines` (src/src/lib.rs:325-370).
Each of the later iterators is advanced once per first line; an exhausted or
empty line makes the corresponding not-empty flag false, which is rendered
by `headD [] ≠ []`.  The first space is emitted when the first and second
lines are non-empty; the second when the third line is non-empty and the
first or second is. -/
def byThreeGo :
    List (List Char) → List (List Char) → List (List Char) →
      List (List Char)
  | [], _, _ => []
  | f :: fs, ss, ts =>
      let sLine := ss.headD []
      let tLine := ts.headD []
      let firstSpaceTake := if f ≠ [] ∧ sLine ≠ [] then 1 else 0
      let secondSpaceTake :=
        if (f ≠ [] ∨ sLine ≠ []) ∧ tLine ≠ [] then 1 else 0
      [f] ++ List.replicate firstSpaceTake [' '] ++ strLines sLine ++
        List.replicate secondSpaceTake [' '] ++ strLines tLine ++
        [['\n']] ++ byThreeGo fs ss.tail ts.tail

/-- Embedding of `by_three_lines` (src/src/lib.rs:325-370). -/
def by_three_lines (firstStr secondStr thirdStr : List Char) :
    List (List Char) :=
  byThreeGo (strLines firstStr) (strLines secondStr) (strLines thirdStr)

/-- Lockstep recursion embedding `by_four_lines` (src/src/lib.rs:393-458);
the third space is emitted when the fourth line is non-empty and any of the
first three lines is non-empty. -/
def byFourGo :
    List (List Char) → List (List Char) → List (List Char) →
      List (List Char) → List (List Char)
  | [], _, _, _ => []
  | f :: fs, ss, ts, us =>
      let sLine := ss.headD []
      let tLine := ts.headD []
      let uLine := us.headD []
      let firstSpaceTake := if f ≠ [] ∧ sLine ≠ [] then 1 else 0
      let secondSpaceTake :=
        if (f ≠ [] ∨ sLine ≠ []) ∧ tLine ≠ [] then 1 else 0
      let thirdSpaceTake :=
        if (f ≠ [] ∨ sLine ≠ [] ∨ tLine ≠ []) ∧ uLine ≠ [] then 1 else 0
      [f] ++ List.replicate firstSpaceTake [' '] ++ strLines sLine ++
        List.replicate secondSpaceTake [' '] ++ strLines tLine ++
        List.replicate thirdSpaceTake [' '] ++ strLines uLine ++
        [['\n']] ++ byFourGo fs ss.tail ts.tail us.tail

/-- Embedding of `by_four_lines` (src/src/lib.rs:393-458). -/
def by_four_lines (firstStr secondStr thirdStr fourthStr : List Char) :
    List (List Char) :=
  byFourGo (strLines firstStr) (strLines secondStr) (strLines thirdStr)
    (strLines fourthStr)


/-! Basic facts about the line splitter and the line view. -/

theorem splitNl_ne_nil (cs : List Char) : splitNl cs ≠ [] := by
  cases cs with
  | nil => simp [splitNl]
  | cons c cs => by_cases hc : c = '\n' <;> simp [splitNl, hc]

theorem splitNl_eq_head_cons (cs : List Char) :
    splitNl cs = (splitNl cs).headD [] :: (splitNl cs).tail := by
  match h : splitNl cs with
  | [] => exact absurd h (splitNl_ne_nil cs)
  | l :: ls => rfl

theorem headD_mem_splitNl (cs : List Char) :
    (splitNl cs).headD [] ∈ splitNl cs := by
  cases hs : splitNl cs with
  | nil => exact absurd hs (splitNl_ne_nil cs)
  | cons a ls => simp

theorem mem_tail_mem_splitNl {cs : List Char} {l : List Char}
    (h : l ∈ (splitNl cs).tail) : l ∈ splitNl cs := by
  cases hs : splitNl cs with
  | nil => exact absurd hs (splitNl_ne_nil cs)
  | cons a ls =>
    rw [hs] at h
    exact List.mem_cons_of_mem _ h

theorem mem_splitNl_not_nl {cs : List Char} :
    ∀ {l : List Char}, l ∈ splitNl cs → '\n' ∉ l := by
  induction cs with
  | nil =>
    intro l h
    simp [splitNl] at h
    simp [h]
  | cons c cs ih =>
    intro l h
    by_cases hc : c = '\n'
    · subst hc
      simp [splitNl] at h
      rcases h with h | h
      · simp [h]
      · exact ih h
    · simp only [splitNl, if_neg hc] at h
      rcases List.mem_cons.mp h with h | h
      · subst h
        intro hmem
        rcases List.mem_cons.mp hmem with h' | h'
        · exact hc h'.symm
        · exact ih (headD_mem_splitNl cs) h'
      · exact ih (mem_tail_mem_splitNl h)

theorem mem_dropLastEmpty {ls : List (List Char)} {l : List Char}
    (h : l ∈ dropLastEmpty ls) : l ∈ ls := by
  induction ls with
  | nil => simp [dropLastEmpty] at h
  | cons a ls ih =>
    cases ls with
    | nil =>
      by_cases ha : a = [] <;> simp [dropLastEmpty, ha] at h
      simp [h]
    | cons b ls' =>
      rcases List.mem_cons.mp h with h | h
      · simp [h]
      · exact List.mem_cons_of_mem _ (ih h)

theorem mem_strLines_not_nl {cs : List Char} {l : List Char}
    (h : l ∈ strLines cs) : '\n' ∉ l :=
  mem_splitNl_not_nl (mem_dropLastEmpty h)

theorem splitNl_nlfree {l : List Char} (h : '\n' ∉ l) : splitNl l = [l] := by
  induction l with
  | nil => simp [splitNl]
  | cons c cs ih =>
    have hc : c ≠ '\n' := fun hh => h (by simp [hh])
    have hcs : '\n' ∉ cs := fun hh => h (List.mem_cons_of_mem _ hh)
    simp [splitNl, if_neg hc, ih hcs]

theorem strLines_nlfree {l : List Char} (h : '\n' ∉ l) :
    strLines l = if l = [] then [] else [l] := by
  by_cases hl : l = []
  · subst hl; simp [strLines, splitNl, dropLastEmpty]
  · simp [strLines, splitNl_nlfree h, dropLastEmpty, hl]

theorem max_line_len_single {l : List Char} (h : '\n' ∉ l) :
    max_line_len l = l.length := by
  by_cases hl : l = []
  · subst hl; simp [max_line_len, strLines_nlfree, dropLastEmpty]
  · simp [max_line_len, strLines_nlfree h, hl]

theorem le_foldr_max {x : Nat} {xs : List Nat} (h : x ∈ xs) :
    x ≤ xs.foldr Nat.max 0 := by
  induction xs with
  | nil => simp at h
  | cons a xs ih =>
    rcases List.mem_cons.mp h with h | h
    · subst h; exact Nat.le_max_left _ _
    · exact Nat.le_trans (ih h) (Nat.le_max_right _ _)

theorem mem_strLines_length_le {cs : List Char} {l : List Char}
    (h : l ∈ strLines cs) : l.length ≤ max_line_len cs :=
  le_foldr_max (List.mem_map_of_mem List.length h)

/-! Facts about the escape stripper. -/

theorem stripStep_newline (st : EscState) :
    stripStep st '\n' = (EscState.ground, ['\n']) := by
  cases st <;> simp [stripStep]

theorem stripStep_snd (st : EscState) (c : Char) :
    (stripStep st c).2 = [] ∨ (stripStep st c).2 = [c] := by
  cases st <;> simp only [stripStep] <;> split_ifs <;> simp_all

theorem stripAccum_sublist (st : EscState) (cs : List Char) :
    List.Sublist (stripAccum st cs) cs := by
  induction cs generalizing st with
  | nil => simp [stripAccum]
  | cons c cs ih =>
    rw [stripAccum]
    rcases stripStep_snd st c with h | h <;> rw [h]
    · exact List.Sublist.trans (ih _) (List.sublist_cons_self _ _)
    · exact List.Sublist.cons₂ c (ih _)

theorem not_nl_stripAccum {cs : List Char} (st : EscState) (h : '\n' ∉ cs) :
    '\n' ∉ stripAccum st cs :=
  fun hm => h ((stripAccum_sublist st cs).subset hm)

theorem splitNl_stripAccum (cs : List Char) : ∀ st : EscState,
    splitNl (stripAccum st cs) =
      stripAccum st ((splitNl cs).headD []) ::
        ((splitNl cs).tail).map strip := by
  induction cs with
  | nil => intro st; simp [stripAccum, splitNl]
  | cons c cs ih =>
    intro st
    by_cases hc : c = '\n'
    · subst hc
      have hmap : splitNl (stripAccum EscState.ground cs) =
          (splitNl cs).map strip := by
        rw [ih EscState.ground]
        conv_rhs => rw [splitNl_eq_head_cons cs]
        simp [strip]
      simp [stripAccum, stripStep_newline, splitNl, hmap]
    · rcases hstep : stripStep st c with ⟨s', out⟩
      have hout : out = [] ∨ out = [c] := by
        have h := stripStep_snd st c
        rw [hstep] at h
        exact h
      rcases hout with h | h <;> subst h
      · rw [stripAccum, hstep]
        simp only [List.nil_append]
        rw [ih s']
        simp only [splitNl, if_neg hc, List.headD_cons, List.tail_cons]
        rw [stripAccum, hstep]
        simp
      · rw [stripAccum, hstep]
        simp only [List.singleton_append]
        rw [splitNl, if_neg hc, ih s']
        simp only [splitNl, if_neg hc, List.headD_cons, List.tail_cons]
        rw [stripAccum, hstep]
        simp

theorem splitNl_strip (cs : List Char) :
    splitNl (strip cs) = (splitNl cs).map strip := by
  rw [strip, splitNl_stripAccum cs EscState.ground]
  conv_rhs => rw [splitNl_eq_head_cons cs]
  simp [strip]

theorem dropLastEmpty_map_cases (f : List Char → List Char) (hf : f [] = [])
    (P : List (List Char)) :
    dropLastEmpty (P.map f) = (dropLastEmpty P).map f ∨
      (dropLastEmpty P).map f = dropLastEmpty (P.map f) ++ [[]] := by
  induction P with
  | nil => left; simp [dropLastEmpty]
  | cons a P ih =>
    cases P with
    | nil =>
      by_cases ha : a = []
      · subst ha; left; simp [dropLastEmpty, hf]
      · by_cases hfa : f a = []
        · right; simp [dropLastEmpty, ha, hfa]
        · left; simp [dropLastEmpty, ha, hfa]
    | cons b P' =>
      have e1 : dropLastEmpty (a :: b :: P') = a :: dropLastEmpty (b :: P') := rfl
      have e2 : dropLastEmpty (f a :: f b :: P'.map f) =
          f a :: dropLastEmpty (f b :: P'.map f) := rfl
      rcases ih with h | h
      · left
        simp only [List.map_cons] at h ⊢
        rw [e1, e2, h]
        simp
      · right
        simp only [List.map_cons] at h ⊢
        rw [e1, e2]
        simp [h]

theorem strLines_strip_cases (cs : List Char) :
    strLines (strip cs) = (strLines cs).map strip ∨
      (strLines cs).map strip = strLines (strip cs) ++ [[]] := by
  have h := dropLastEmpty_map_cases strip (by simp [strip, stripAccum])
    (splitNl cs)
  rw [strLines, strLines, splitNl_strip cs]
  exact h

theorem foldr_max_append_zero (A : List Nat) :
    (A ++ [0]).foldr Nat.max 0 = A.foldr Nat.max 0 := by
  induction A with
  | nil => simp
  | cons a A ih => simp [ih]

theorem max_line_len_strip (cs : List Char) :
    max_line_len (strip cs) =
      ((strLines cs).map fun l => (strip l).length).foldr Nat.max 0 := by
  rcases strLines_strip_cases cs with h | h
  · rw [max_line_len, h, List.map_map]
    rfl
  · have hlen : ((strLines cs).map fun l => (strip l).length) =
        (strLines (strip cs)).map List.length ++ [0] := by
      have hc := congrArg (List.map List.length) h
      simpa [List.map_map] using hc
    rw [max_line_len, hlen, foldr_max_append_zero]

theorem strip_line_length_le {cs l : List Char} (h : l ∈ strLines cs) :
    (strip l).length ≤ max_line_len_no_esc cs := by
  rw [max_line_len_no_esc, max_line_len_strip]
  exact le_foldr_max (List.mem_map_of_mem _ h)

theorem max_line_len_no_esc_single {l : List Char} (h : '\n' ∉ l) :
    max_line_len_no_esc l = (strip l).length :=
  max_line_len_single (not_nl_stripAccum EscState.ground h)

/-! A lockstep normal form for the zip-then-leftovers shape shared by
`combine_col`, `combine_col_esc` and `cat_to_col`. -/

/-- Walk two line lists in lockstep: a paired block for every common index,
then a left-leftover block for each extra line of the first list or a
right-leftover block for each extra line of the second. -/
def lockstep {α γ : Type} (bp : α → α → List γ) (bl br : α → List γ) :
    List α → List α → List γ
  | [], [] => []
  | a :: as, [] => bl a ++ lockstep bp bl br as []
  | [], b :: bs => br b ++ lockstep bp bl br [] bs
  | a :: as, b :: bs => bp a b ++ lockstep bp bl br as bs

theorem lockstep_nil_left {α γ : Type} (bp : α → α → List γ)
    (bl br : α → List γ) (l2s : List α) :
    lockstep bp bl br [] l2s = l2s.flatMap br := by
  induction l2s with
  | nil => simp [lockstep]
  | cons b bs ih => simp [lockstep, ih]

theorem lockstep_nil_right {α γ : Type} (bp : α → α → List γ)
    (bl br : α → List γ) (l1s : List α) :
    lockstep bp bl br l1s [] = l1s.flatMap bl := by
  induction l1s with
  | nil => simp [lockstep]
  | cons a as ih => simp [lockstep, ih]

theorem zip_drop_eq_lockstep {α γ : Type} (bp : α → α → List γ)
    (bl br : α → List γ) (l1s l2s : List α) :
    ((l1s.zip l2s).flatMap fun p => bp p.1 p.2) ++
        ((l1s.drop (min l1s.length l2s.length)).flatMap bl) ++
        ((l2s.drop (min l1s.length l2s.length)).flatMap br) =
      lockstep bp bl br l1s l2s := by
  induction l1s generalizing l2s with
  | nil => simp [lockstep_nil_left]
  | cons a as ih =>
    cases l2s with
    | nil => simp [lockstep_nil_right]
    | cons b bs =>
      have hmin : min (a :: as).length (b :: bs).length =
          min as.length bs.length + 1 := by
        simp [Nat.succ_min_succ]
      rw [hmin]
      simp only [List.zip_cons_cons, List.flatMap_cons, List.drop_succ_cons,
        lockstep]
      rw [← ih bs]
      simp [List.append_assoc]

theorem flatMap_congr {α γ : Type} {f g : α → List γ} {l : List α}
    (h : ∀ a ∈ l, f a = g a) : l.flatMap f = l.flatMap g := by
  induction l with
  | nil => simp
  | cons a as ih =>
    simp only [List.flatMap_cons]
    rw [h a (List.mem_cons_self _ _), ih fun x hx => h x (List.mem_cons_of_mem _ hx)]

theorem lockstep_congr {α γ : Type} {bp bp' : α → α → List γ}
    {bl bl' br br' : α → List γ} {l1s l2s : List α}
    (hp : ∀ a ∈ l1s, ∀ b ∈ l2s, bp a b = bp' a b)
    (hl : ∀ a ∈ l1s, bl a = bl' a) (hr : ∀ b ∈ l2s, br b = br' b) :
    lockstep bp bl br l1s l2s = lockstep bp' bl' br' l1s l2s := by
  induction l1s generalizing l2s with
  | nil =>
    rw [lockstep_nil_left, lockstep_nil_left]
    exact flatMap_congr hr
  | cons a as ih =>
    cases l2s with
    | nil =>
      rw [lockstep_nil_right, lockstep_nil_right]
      exact flatMap_congr hl
    | cons b bs =>
      rw [lockstep, lockstep]
      rw [hp a (List.mem_cons_self _ _) b (List.mem_cons_self _ _)]
      rw [ih (fun x hx y hy => hp x (List.mem_cons_of_mem _ hx) y
            (List.mem_cons_of_mem _ hy))
          (fun x hx => hl x (List.mem_cons_of_mem _ hx))
          (fun y hy => hr y (List.mem_cons_of_mem _ hy))]

/-- Paired-line block of the column modes: first line, `(maxw - w line) +
rep` fill fragments, second line, line feed. -/
def colPairBlock (fill : Char) (rep maxw : Nat) (w : List Char → Nat)
    (a b : List Char) : List (List Char) :=
  [a] ++ List.replicate ((maxw - w a) + rep) [fill] ++ [b] ++ [['\n']]

/-- Leftover block emitted bare: the line and its line feed. -/
def bareBlock (a : List Char) : List (List Char) :=
  [a, ['\n']]

/-- Second-block leftover block of the column modes: `maxw + rep` fill
fragments, the line, line feed. -/
def colLeftBlock (fill : Char) (rep maxw : Nat) (b : List Char) :
    List (List Char) :=
  List.replicate (maxw + rep) [fill] ++ [b, ['\n']]

/-- Lockstep normal form of the column modes, parameterized by the width
measure `w` used for the paired lines. -/
def colJoin (fill : Char) (rep maxw : Nat) (w : List Char → Nat)
    (l1s l2s : List (List Char)) : List (List Char) :=
  lockstep (colPairBlock fill rep maxw w) bareBlock
    (colLeftBlock fill rep maxw) l1s l2s

/-- Paired-line block of `cat_to_col`: first line, one literal space, second
line, line feed. -/
def catPairBlock (a b : List Char) : List (List Char) :=
  [a, [' '], b, ['\n']]

/-- Lockstep normal form of `cat_to_col`. -/
def catJoin (l1s l2s : List (List Char)) : List (List Char) :=
  lockstep catPairBlock bareBlock bareBlock l1s l2s

theorem combine_col_eq_colJoin (self : CatToCol) (t1 t2 : List Char) :
    self.combine_col t1 t2 =
      colJoin self.fill self.repeatCount (max_line_len t1) max_line_len
        (strLines t1) (strLines t2) := by
  simp only [CatToCol.combine_col, colJoin]
  exact zip_drop_eq_lockstep
    (colPairBlock self.fill self.repeatCount (max_line_len t1) max_line_len)
    bareBlock (colLeftBlock self.fill self.repeatCount (max_line_len t1))
    (strLines t1) (strLines t2)

theorem combine_col_esc_eq_colJoin (self : CatToCol) (t1 t2 : List Char) :
    self.combine_col_esc t1 t2 =
      colJoin self.fill self.repeatCount (max_line_len_no_esc t1)
        max_line_len_no_esc (strLines t1) (strLines t2) := by
  simp only [CatToCol.combine_col_esc, colJoin]
  exact zip_drop_eq_lockstep
    (colPairBlock self.fill self.repeatCount (max_line_len_no_esc t1)
      max_line_len_no_esc)
    bareBlock
    (colLeftBlock self.fill self.repeatCount (max_line_len_no_esc t1))
    (strLines t1) (strLines t2)

theorem cat_to_col_eq_catJoin (t1 t2 : List Char) :
    cat_to_col t1 t2 = catJoin (strLines t1) (strLines t2) := by
  simp only [cat_to_col, catJoin]
  exact zip_drop_eq_lockstep catPairBlock bareBlock bareBlock
    (strLines t1) (strLines t2)

theorem colJoin_w_congr {fill : Char} {rep maxw : Nat}
    {w w' : List Char → Nat} {l1s l2s : List (List Char)}
    (h : ∀ a ∈ l1s, w a = w' a) :
    colJoin fill rep maxw w l1s l2s = colJoin fill rep maxw w' l1s l2s := by
  refine lockstep_congr (fun a ha b _ => ?_) (fun a _ => rfl) (fun b _ => rfl)
  simp [colPairBlock, h a ha]

theorem combine_col_eq_colJoin_len (self : CatToCol) (t1 t2 : List Char) :
    self.combine_col t1 t2 =
      colJoin self.fill self.repeatCount (max_line_len t1) List.length
        (strLines t1) (strLines t2) := by
  rw [combine_col_eq_colJoin]
  exact colJoin_w_congr fun a ha => max_line_len_single (mem_strLines_not_nl ha)

theorem combine_col_esc_eq_colJoin_striplen (self : CatToCol)
    (t1 t2 : List Char) :
    self.combine_col_esc t1 t2 =
      colJoin self.fill self.repeatCount (max_line_len_no_esc t1)
        (fun l => (strip l).length) (strLines t1) (strLines t2) := by
  rw [combine_col_esc_eq_colJoin]
  exact colJoin_w_congr fun a ha =>
    max_line_len_no_esc_single (mem_strLines_not_nl ha)

theorem flatMap_map {α β γ : Type} (f : α → β) (g : β → List γ) (l : List α) :
    (l.map f).flatMap g = l.flatMap fun a => g (f a) := by
  induction l with
  | nil => simp
  | cons a as ih => simp [ih]

theorem range_flatMap_succ {γ : Type} (n : Nat) (g : Nat → List γ) :
    (List.range (n + 1)).flatMap g =
      g 0 ++ (List.range n).flatMap fun i => g (i + 1) := by
  rw [List.range_succ_eq_map, List.flatMap_cons, flatMap_map]

theorem zip_flatMap_eq_range {α β γ : Type} (g : α × β → List γ)
    (d1 : α) (d2 : β) (l1 : List α) (l2 : List β) :
    (l1.zip l2).flatMap g =
      (List.range (min l1.length l2.length)).flatMap fun i =>
        g (l1.getD i d1, l2.getD i d2) := by
  induction l1 generalizing l2 with
  | nil => simp
  | cons a as ih =>
    cases l2 with
    | nil => simp
    | cons b bs =>
      have hmin : min (a :: as).length (b :: bs).length =
          min as.length bs.length + 1 := by
        simp [Nat.succ_min_succ]
      rw [hmin, range_flatMap_succ]
      simp only [List.zip_cons_cons, List.flatMap_cons, List.getD_cons_zero,
        List.getD_cons_succ]
      rw [ih bs]

/-! Claim C1. -/

/-- C1: for every configuration and pair of texts, `combine_col` emits, for
each paired line index `i` below `min(n1, n2)`, block1's line `i`, then
`(max_visible_width(block1) - width(line1[i])) + repeat` copies of the fill
character, then block2's line `i`, then a line feed; after the common
prefix, block1's leftover lines are emitted verbatim with no padding and
each of block2's leftover lines is prefixed with `max_visible_width(block1)
+ repeat` fill characters. -/
theorem combine_col_emission_spec (self : CatToCol) (t1 t2 : List Char) :
    self.combine_col t1 t2 =
      ((List.range (min (strLines t1).length (strLines t2).length)).flatMap
        fun i =>
          [(strLines t1).getD i []] ++
            List.replicate
              ((max_line_len t1 - ((strLines t1).getD i []).length) +
                self.repeatCount) [self.fill] ++
            [(strLines t2).getD i []] ++ [['\n']]) ++
      (((strLines t1).drop
          (min (strLines t1).length (strLines t2).length)).flatMap
        fun line => [line, ['\n']]) ++
      (((strLines t2).drop
          (min (strLines t1).length (strLines t2).length)).flatMap
        fun line =>
          List.replicate (max_line_len t1 + self.repeatCount) [self.fill] ++
            [line, ['\n']]) := by
  simp only [CatToCol.combine_col]
  have h1 : ((strLines t1).zip (strLines t2)).flatMap
      (fun item => [item.1] ++
        List.replicate
          ((max_line_len t1 - max_line_len item.1) + self.repeatCount)
          [self.fill] ++ [item.2] ++ [['\n']]) =
      ((strLines t1).zip (strLines t2)).flatMap
      (fun item => [item.1] ++
        List.replicate
          ((max_line_len t1 - item.1.length) + self.repeatCount)
          [self.fill] ++ [item.2] ++ [['\n']]) :=
    flatMap_congr fun p hp => by
      rcases p with ⟨a, b⟩
      rw [max_line_len_single (mem_strLines_not_nl (List.of_mem_zip hp).1)]
  rw [h1, zip_flatMap_eq_range]

/-! Counting line feeds in the produced fragment sequences. -/

theorem flatten_replicate_singleton {α : Type} (n : Nat) (a : α) :
    (List.replicate n [a]).flatten = List.replicate n a := by
  induction n with
  | zero => simp
  | succ n ih => simp [List.replicate_succ, ih]

theorem not_nl_strLines_flatten (x : List Char) :
    '\n' ∉ (strLines x).flatten := by
  intro h
  rcases List.mem_flatten.mp h with ⟨l, hl, hm⟩
  exact mem_strLines_not_nl hl hm

theorem count_nl_replicate_fill {fill : Char} (n : Nat) (hf : fill ≠ '\n') :
    (List.replicate n fill).count '\n' = 0 := by
  refine List.count_eq_zero.mpr ?_
  simp only [List.mem_replicate]
  exact fun h => hf h.2.symm

theorem colPairBlock_count {fill : Char} {rep maxw : Nat}
    {w : List Char → Nat} {a b : List Char} (ha : '\n' ∉ a) (hb : '\n' ∉ b)
    (hf : fill ≠ '\n') :
    ((colPairBlock fill rep maxw w a b).flatten.count '\n') = 1 := by
  simp [colPairBlock, flatten_replicate_singleton, List.count_append,
    List.count_eq_zero.mpr ha, List.count_eq_zero.mpr hb,
    count_nl_replicate_fill _ hf]

theorem bareBlock_count {a : List Char} (ha : '\n' ∉ a) :
    ((bareBlock a).flatten.count '\n') = 1 := by
  simp [bareBlock, List.count_append, List.count_eq_zero.mpr ha]

theorem colLeftBlock_count {fill : Char} {rep maxw : Nat} {b : List Char}
    (hb : '\n' ∉ b) (hf : fill ≠ '\n') :
    ((colLeftBlock fill rep maxw b).flatten.count '\n') = 1 := by
  simp [colLeftBlock, flatten_replicate_singleton, List.count_append,
    List.count_eq_zero.mpr hb, count_nl_replicate_fill _ hf]

theorem catPairBlock_count {a b : List Char} (ha : '\n' ∉ a)
    (hb : '\n' ∉ b) :
    ((catPairBlock a b).flatten.count '\n') = 1 := by
  simp [catPairBlock, List.count_append, List.count_eq_zero.mpr ha,
    List.count_eq_zero.mpr hb]

theorem lockstep_flatten_count
    (bp : List Char → List Char → List (List Char))
    (bl br : List Char → List (List Char)) (l1s l2s : List (List Char))
    (hbp : ∀ a ∈ l1s, ∀ b ∈ l2s, ((bp a b).flatten.count '\n') = 1)
    (hbl : ∀ a ∈ l1s, ((bl a).flatten.count '\n') = 1)
    (hbr : ∀ b ∈ l2s, ((br b).flatten.count '\n') = 1) :
    ((lockstep bp bl br l1s l2s).flatten.count '\n') =
      max l1s.length l2s.length := by
  induction l1s generalizing l2s with
  | nil =>
    induction l2s with
    | nil => simp [lockstep]
    | cons b bs ihb =>
      rw [lockstep]
      simp only [List.flatten_append, List.count_append]
      rw [hbr b (List.mem_cons_self _ _),
        ihb (fun a ha b' hb' => hbp a ha b' (List.mem_cons_of_mem _ hb'))
          (fun b' hb' => hbr b' (List.mem_cons_of_mem _ hb'))]
      simp [Nat.add_comm]
  | cons a as ih =>
    cases l2s with
    | nil =>
      rw [lockstep]
      simp only [List.flatten_append, List.count_append]
      rw [hbl a (List.mem_cons_self _ _),
        ih [] (fun x hx y hy => absurd hy (List.not_mem_nil y))
          (fun x hx => hbl x (List.mem_cons_of_mem _ hx))
          (fun y hy => absurd hy (List.not_mem_nil y))]
      simp [Nat.add_comm]
    | cons b bs =>
      rw [lockstep]
      simp only [List.flatten_append, List.count_append]
      rw [hbp a (List.mem_cons_self _ _) b (List.mem_cons_self _ _),
        ih bs (fun x hx y hy => hbp x (List.mem_cons_of_mem _ hx) y
            (List.mem_cons_of_mem _ hy))
          (fun x hx => hbl x (List.mem_cons_of_mem _ hx))
          (fun y hy => hbr y (List.mem_cons_of_mem _ hy))]
      simp only [List.length_cons]
      omega

theorem combine_col_count (self : CatToCol) (t1 t2 : List Char)
    (hf : self.fill ≠ '\n') :
    ((self.combine_col t1 t2).flatten.count '\n') =
      max (strLines t1).length (strLines t2).length := by
  rw [combine_col_eq_colJoin, colJoin]
  exact lockstep_flatten_count _ _ _ _ _
    (fun a ha b hb => colPairBlock_count (mem_strLines_not_nl ha)
      (mem_strLines_not_nl hb) hf)
    (fun a ha => bareBlock_count (mem_strLines_not_nl ha))
    (fun b hb => colLeftBlock_count (mem_strLines_not_nl hb) hf)

theorem combine_col_esc_count (self : CatToCol) (t1 t2 : List Char)
    (hf : self.fill ≠ '\n') :
    ((self.combine_col_esc t1 t2).flatten.count '\n') =
      max (strLines t1).length (strLines t2).length := by
  rw [combine_col_esc_eq_colJoin, colJoin]
  exact lockstep_flatten_count _ _ _ _ _
    (fun a ha b hb => colPairBlock_count (mem_strLines_not_nl ha)
      (mem_strLines_not_nl hb) hf)
    (fun a ha => bareBlock_count (mem_strLines_not_nl ha))
    (fun b hb => colLeftBlock_count (mem_strLines_not_nl hb) hf)

theorem cat_to_col_count (t1 t2 : List Char) :
    ((cat_to_col t1 t2).flatten.count '\n') =
      max (strLines t1).length (strLines t2).length := by
  rw [cat_to_col_eq_catJoin, catJoin]
  exact lockstep_flatten_count _ _ _ _ _
    (fun a ha b hb => catPairBlock_count (mem_strLines_not_nl ha)
      (mem_strLines_not_nl hb))
    (fun a ha => bareBlock_count (mem_strLines_not_nl ha))
    (fun b hb => bareBlock_count (mem_strLines_not_nl hb))

theorem byLinesGo_count (fs : List (List Char)) :
    ∀ ss : List (List Char), (∀ l ∈ fs, '\n' ∉ l) →
      ((byLinesGo fs ss).flatten.count '\n') = fs.length := by
  induction fs with
  | nil => intro ss h1; simp [byLinesGo]
  | cons f fs ih =>
    intro ss h1
    simp only [byLinesGo, List.flatten_append, List.flatten_cons,
      List.flatten_nil, List.append_nil, List.count_append]
    rw [flatten_replicate_singleton, count_nl_replicate_fill _ (by decide),
      List.count_eq_zero.mpr (h1 f (List.mem_cons_self _ _)),
      List.count_eq_zero.mpr (not_nl_strLines_flatten (ss.headD [])),
      ih ss.tail fun l hl => h1 l (List.mem_cons_of_mem _ hl)]
    simp [Nat.add_comm]

theorem byPairsGo_eq (fs : List (List Char)) :
    ∀ ss : List (List Char), (∀ l ∈ ss, '\n' ∉ l) →
      byPairsGo fs ss = (fs.zip ss).flatMap fun p =>
        if p.1 = [] ∨ p.2 = [] then [] else [p.1, [' '], p.2, ['\n']] := by
  induction fs with
  | nil => intro ss h2; simp [byPairsGo]
  | cons f fs ih =>
    intro ss h2
    cases ss with
    | nil =>
      simp only [byPairsGo, List.headD_nil, List.tail_nil]
      rw [ih [] (fun l hl => absurd hl (List.not_mem_nil l))]
      simp
    | cons s ss' =>
      simp only [byPairsGo, List.headD_cons, List.tail_cons,
        List.zip_cons_cons, List.flatMap_cons]
      rw [ih ss' fun l hl => h2 l (List.mem_cons_of_mem _ hl)]
      by_cases he : f = [] ∨ s = []
      · simp [he]
      · push_neg at he
        rw [if_neg (by simp [he.1, he.2]), if_neg (by simp [he.1, he.2])]
        rw [strLines_nlfree (h2 s (List.mem_cons_self _ _)), if_neg he.2]
        rw [List.take_of_length_le (by simp [usizeMAX])]
        simp

theorem byPairsGo_count (fs : List (List Char)) :
    ∀ ss : List (List Char), (∀ l ∈ fs, '\n' ∉ l) → (∀ l ∈ ss, '\n' ∉ l) →
      ((byPairsGo fs ss).flatten.count '\n') =
        (fs.zip ss).countP fun p => !p.1.isEmpty && !p.2.isEmpty := by
  induction fs with
  | nil => intro ss h1 h2; simp [byPairsGo]
  | cons f fs ih =>
    intro ss h1 h2
    have h1' : ∀ l ∈ fs, ('\n') ∉ l :=
      fun l hl => h1 l (List.mem_cons_of_mem _ hl)
    cases ss with
    | nil =>
      rw [byPairsGo_eq (f :: fs) [] (fun l hl => absurd hl (List.not_mem_nil l))]
      simp
    | cons s ss' =>
      have h2' : ∀ l ∈ ss', ('\n') ∉ l :=
        fun l hl => h2 l (List.mem_cons_of_mem _ hl)
      simp only [byPairsGo, List.headD_cons, List.tail_cons,
        List.zip_cons_cons, List.countP_cons, List.flatten_append,
        List.count_append]
      rw [ih ss' h1' h2']
      by_cases he : f = [] ∨ s = []
      · have hb : (!f.isEmpty && !s.isEmpty) = false := by
          rcases he with he | he <;> simp [he]
        rw [if_pos he, hb]
        simp
      · push_neg at he
        have hb : (!f.isEmpty && !s.isEmpty) = true := by
          simp [List.isEmpty_iff, he.1, he.2]
        rw [if_neg (by simp [he.1, he.2]), hb]
        rw [strLines_nlfree (h2 s (List.mem_cons_self _ _)), if_neg he.2]
        rw [List.take_of_length_le (by simp [usizeMAX])]
        have hcf := List.count_eq_zero.mpr (h1 f (List.mem_cons_self _ _))
        have hcs := List.count_eq_zero.mpr (h2 s (List.mem_cons_self _ _))
        simp [hcf, hcs, Nat.add_comm]

theorem byThreeGo_count (fs : List (List Char)) :
    ∀ ss ts : List (List Char), (∀ l ∈ fs, '\n' ∉ l) →
      ((byThreeGo fs ss ts).flatten.count '\n') = fs.length := by
  induction fs with
  | nil => intro ss ts h1; simp [byThreeGo]
  | cons f fs ih =>
    intro ss ts h1
    simp only [byThreeGo, List.flatten_append, List.flatten_cons,
      List.flatten_nil, List.append_nil, List.count_append]
    rw [flatten_replicate_singleton, count_nl_replicate_fill _ (by decide),
      flatten_replicate_singleton, count_nl_replicate_fill _ (by decide),
      List.count_eq_zero.mpr (h1 f (List.mem_cons_self _ _)),
      List.count_eq_zero.mpr (not_nl_strLines_flatten (ss.headD [])),
      List.count_eq_zero.mpr (not_nl_strLines_flatten (ts.headD [])),
      ih ss.tail ts.tail fun l hl => h1 l (List.mem_cons_of_mem _ hl)]
    simp [Nat.add_comm]

theorem byFourGo_count (fs : List (List Char)) :
    ∀ ss ts us : List (List Char), (∀ l ∈ fs, '\n' ∉ l) →
      ((byFourGo fs ss ts us).flatten.count '\n') = fs.length := by
  induction fs with
  | nil => intro ss ts us h1; simp [byFourGo]
  | cons f fs ih =>
    intro ss ts us h1
    simp only [byFourGo, List.flatten_append, List.flatten_cons,
      List.flatten_nil, List.append_nil, List.count_append]
    rw [flatten_replicate_singleton, count_nl_replicate_fill _ (by decide),
      flatten_replicate_singleton, count_nl_replicate_fill _ (by decide),
      flatten_replicate_singleton, count_nl_replicate_fill _ (by decide),
      List.count_eq_zero.mpr (h1 f (List.mem_cons_self _ _)),
      List.count_eq_zero.mpr (not_nl_strLines_flatten (ss.headD [])),
      List.count_eq_zero.mpr (not_nl_strLines_flatten (ts.headD [])),
      List.count_eq_zero.mpr (not_nl_strLines_flatten (us.headD [])),
      ih ss.tail ts.tail us.tail fun l hl => h1 l (List.mem_cons_of_mem _ hl)]
    simp [Nat.add_comm]

/-! Claims C2 and C7. -/

/-- C2 counterexample: the claimed invariant `output lines = max(n1, n2)`
fails for `combine_col` as soon as the configured fill character is itself
a line feed: combining the one-line texts `a` and `b` with fill `LF` and
repeat `1` produces two line-feed-terminated lines, not one. -/
theorem output_line_count_claim_false :
    ¬ (((CatToCol.mk '\n' 1).combine_col ['a'] ['b']).flatten.count '\n') =
        max (strLines ['a']).length (strLines ['b']).length := by
  decide

/-- C2 (amended): provided the configured fill character is not a line
feed, the number of line-feed-terminated output lines equals `max(n1, n2)`
for `combine_col`, `combine_col_esc` and `cat_to_col`, equals `n1` exactly
for `by_lines`, `by_three_lines` and `by_four_lines`, and equals the count
of indices where both paired lines exist and are non-empty for
`by_pairs`. -/
theorem output_line_count_invariant (self : CatToCol)
    (t1 t2 t3 t4 : List Char) (hf : self.fill ≠ '\n') :
    ((self.combine_col t1 t2).flatten.count '\n') =
        max (strLines t1).length (strLines t2).length ∧
      ((self.combine_col_esc t1 t2).flatten.count '\n') =
        max (strLines t1).length (strLines t2).length ∧
      ((cat_to_col t1 t2).flatten.count '\n') =
        max (strLines t1).length (strLines t2).length ∧
      ((by_lines t1 t2).flatten.count '\n') = (strLines t1).length ∧
      ((by_three_lines t1 t2 t3).flatten.count '\n') =
        (strLines t1).length ∧
      ((by_four_lines t1 t2 t3 t4).flatten.count '\n') =
        (strLines t1).length ∧
      ((by_pairs t1 t2).flatten.count '\n') =
        ((strLines t1).zip (strLines t2)).countP
          fun p => !p.1.isEmpty && !p.2.isEmpty :=
  ⟨combine_col_count _ _ _ hf, combine_col_esc_count _ _ _ hf,
    cat_to_col_count _ _,
    byLinesGo_count _ _ fun _ hl => mem_strLines_not_nl hl,
    byThreeGo_count _ _ _ fun _ hl => mem_strLines_not_nl hl,
    byFourGo_count _ _ _ _ fun _ hl => mem_strLines_not_nl hl,
    byPairsGo_count _ _ (fun _ hl => mem_strLines_not_nl hl)
      fun _ hl => mem_strLines_not_nl hl⟩

/-- C2 witness: the amended invariant instantiated at the space fill,
repeat one, and small concrete ragged texts. -/
theorem output_line_count_invariant_witness :
    (CatToCol.mk ' ' 1).fill ≠ '\n' ∧
      ((((CatToCol.mk ' ' 1).combine_col "ab\nc".toList
          "x\ny\nz".toList).flatten.count '\n') =
        max (strLines "ab\nc".toList).length
          (strLines "x\ny\nz".toList).length ∧
      (((CatToCol.mk ' ' 1).combine_col_esc "ab\nc".toList
          "x\ny\nz".toList).flatten.count '\n') =
        max (strLines "ab\nc".toList).length
          (strLines "x\ny\nz".toList).length ∧
      ((cat_to_col "ab\nc".toList "x\ny\nz".toList).flatten.count '\n') =
        max (strLines "ab\nc".toList).length
          (strLines "x\ny\nz".toList).length ∧
      ((by_lines "ab\nc".toList "x\ny\nz".toList).flatten.count '\n') =
        (strLines "ab\nc".toList).length ∧
      ((by_three_lines "ab\nc".toList "x\ny\nz".toList
          "m".toList).flatten.count '\n') = (strLines "ab\nc".toList).length ∧
      ((by_four_lines "ab\nc".toList "x\ny\nz".toList "m".toList
          "".toList).flatten.count '\n') = (strLines "ab\nc".toList).length ∧
      ((by_pairs "ab\nc".toList "x\ny\nz".toList).flatten.count '\n') =
        ((strLines "ab\nc".toList).zip (strLines "x\ny\nz".toList)).countP
          fun p => !p.1.isEmpty && !p.2.isEmpty) :=
  ⟨by decide, output_line_count_invariant (CatToCol.mk ' ' 1) "ab\nc".toList
    "x\ny\nz".toList "m".toList "".toList (by decide)⟩

/-- C7: `by_lines` produces exactly `n1` line-feed-terminated output lines
regardless of the second text's line count, and on the lines
`one,two,three` paired with `first,second` it produces exactly
`one first`, `two second`, and a bare `three`. -/
theorem by_lines_first_driven_length :
    (∀ t1 t2 : List Char,
        ((by_lines t1 t2).flatten.count '\n') = (strLines t1).length) ∧
      (by_lines "one\ntwo\nthree".toList "first\nsecond".toList).flatten =
        "one first\ntwo second\nthree\n".toList :=
  ⟨fun t1 t2 => byLinesGo_count _ _ fun _ hl => mem_strLines_not_nl hl,
    by decide⟩

/-! Claim C5. -/

/-- C5: the output of `by_pairs` consists, in index order, of exactly the
paired indices where both lines exist and are non-empty, each emitted as
line1, one literal space, line2, line feed; an index with a missing or
empty side contributes nothing, and on the lines `one,two` against the
single empty line the output is empty. -/
theorem by_pairs_spec :
    (∀ t1 t2 : List Char,
        by_pairs t1 t2 = ((strLines t1).zip (strLines t2)).flatMap fun p =>
          if p.1 = [] ∨ p.2 = [] then [] else [p.1, [' '], p.2, ['\n']]) ∧
      (by_pairs "one\ntwo".toList "\n".toList).flatten = [] :=
  ⟨fun t1 t2 => byPairsGo_eq _ _ fun _ hl => mem_strLines_not_nl hl,
    by decide⟩

/-! Range-indexed normal form and separator invariant for `by_lines`. -/

theorem headD_eq_getD_zero {α : Type} (ss : List α) (d : α) :
    ss.headD d = ss.getD 0 d := by
  cases ss <;> simp

theorem getD_succ_tail {α : Type} (ss : List α) (i : Nat) (d : α) :
    ss.getD (i + 1) d = ss.tail.getD i d := by
  cases ss <;> simp

theorem replicate_if_one {α : Type} (P : Prop) [inst : Decidable P] (x : α) :
    List.replicate (if P then 1 else 0) x = if P then [x] else [] := by
  by_cases h : P <;> simp [h]

theorem if_ne_comm {α : Type} (P : Prop) [inst : Decidable P] (x y : α) :
    (if ¬ P then x else y) = if P then y else x := by
  by_cases h : P <;> simp [h]

theorem byLinesGo_eq_range (fs : List (List Char)) :
    ∀ ss : List (List Char), (∀ l ∈ ss, '\n' ∉ l) →
      byLinesGo fs ss = (List.range fs.length).flatMap fun i =>
        [fs.getD i []] ++
          (if fs.getD i [] ≠ [] ∧ ss.getD i [] ≠ [] then [[' ']] else []) ++
          (if ss.getD i [] ≠ [] then [ss.getD i []] else []) ++ [['\n']] := by
  induction fs with
  | nil => intro ss _; simp [byLinesGo]
  | cons f fs ih =>
    intro ss h2
    rw [List.length_cons, range_flatMap_succ]
    simp only [List.getD_cons_zero, List.getD_cons_succ]
    simp only [getD_succ_tail]
    rw [← ih ss.tail fun l hl => h2 l (List.mem_of_mem_tail hl)]
    have hs_nl : '\n' ∉ ss.headD [] := by
      cases ss with
      | nil => simp
      | cons s ss' => exact h2 s (List.mem_cons_self _ _)
    simp only [byLinesGo]
    rw [strLines_nlfree hs_nl, ← headD_eq_getD_zero, replicate_if_one,
      if_ne_comm]

theorem byLinesGo_sep (fs : List (List Char)) :
    ∀ ss : List (List Char), [' '] ∉ fs → [' '] ∉ ss →
      (∀ l ∈ ss, '\n' ∉ l) →
      List.Chain' (fun a b => a = [' '] → b ≠ [' '] ∧ b ≠ ['\n'])
        (byLinesGo fs ss) := by
  induction fs with
  | nil => intro ss _ _ _; simp [byLinesGo]
  | cons f fs ih =>
    intro ss h1 h2 h2nl
    have hf : f ≠ [' '] := fun h => h1 (h ▸ List.mem_cons_self _ _)
    have hs_ne : ss.headD [] ≠ [' '] := by
      cases ss with
      | nil => simp
      | cons s ss' => exact fun h => h2 (h ▸ List.mem_cons_self _ _)
    have hs_nl : '\n' ∉ ss.headD [] := by
      cases ss with
      | nil => simp
      | cons s ss' => exact h2nl s (List.mem_cons_self _ _)
    have hs_nlf : ss.headD [] ≠ ['\n'] := by
      intro h
      exact hs_nl (h ▸ List.mem_cons_self _ _)
    have hrec := ih ss.tail
      (fun h => h1 (List.mem_cons_of_mem _ h))
      (fun h => h2 (List.mem_of_mem_tail h))
      (fun l hl => h2nl l (List.mem_of_mem_tail hl))
    simp only [byLinesGo]
    rw [strLines_nlfree hs_nl]
    by_cases hse : ss.headD [] = []
    · have h0 : (if f ≠ [] ∧ ss.headD [] ≠ [] then 1 else 0) = 0 := by
        rw [if_neg]
        intro hc
        exact hc.2 hse
      rw [h0, if_pos hse]
      simp only [List.replicate_zero, List.nil_append, List.append_nil,
        List.singleton_append]
      refine List.chain'_cons'.mpr ⟨?_, List.chain'_cons'.mpr ⟨?_, hrec⟩⟩
      · intro x _ habs; exact absurd habs hf
      · intro x _ habs; exact absurd habs (by decide)
    · by_cases hfe : f = []
      · have h0 : (if f ≠ [] ∧ ss.headD [] ≠ [] then 1 else 0) = 0 := by
          rw [if_neg]
          intro hc
          exact hc.1 hfe
        rw [h0, if_neg hse]
        simp only [List.replicate_zero, List.nil_append, List.append_nil,
          List.singleton_append]
        refine List.chain'_cons'.mpr ⟨?_, List.chain'_cons'.mpr ⟨?_,
          List.chain'_cons'.mpr ⟨?_, hrec⟩⟩⟩
        · intro x _ habs; exact absurd habs hf
        · intro x _ habs; exact absurd habs hs_ne
        · intro x _ habs; exact absurd habs (by decide)
      · have h1' : (if f ≠ [] ∧ ss.headD [] ≠ [] then 1 else 0) = 1 :=
          if_pos ⟨hfe, hse⟩
        rw [h1', if_neg hse]
        simp only [List.replicate_succ, List.replicate_zero, List.nil_append,
          List.append_nil, List.singleton_append, List.cons_append]
        refine List.chain'_cons'.mpr ⟨?_, List.chain'_cons'.mpr ⟨?_,
          List.chain'_cons'.mpr ⟨?_, List.chain'_cons'.mpr ⟨?_, hrec⟩⟩⟩⟩
        · intro x _ habs; exact absurd habs hf
        · intro x hx _
          simp only [List.head?_cons, Option.mem_def, Option.some.injEq] at hx
          have hx' : x = ss.headD [] := hx.symm
          subst hx'
          exact ⟨hs_ne, hs_nlf⟩
        · intro x _ habs; exact absurd habs hs_ne
        · intro x _ habs; exact absurd habs (by decide)

/-! Claim C6. -/

/-- C6: for every line index `i < n1`, `by_lines` emits line1, then one
literal space followed by line2 exactly when line2 exists and both are
non-empty, otherwise line2 immediately adjacent with no space (or nothing
when block2 is exhausted or the line is empty), then a line feed; and,
whenever no input line consists of a lone space (so every lone-space
fragment is an inserted separator), no inserted separator space is
immediately followed by another separator space or by the line-feed
terminator. -/
theorem by_lines_emission_and_no_double_space (t1 t2 : List Char) :
    by_lines t1 t2 = ((List.range (strLines t1).length).flatMap fun i =>
        [(strLines t1).getD i []] ++
          (if (strLines t1).getD i [] ≠ [] ∧ (strLines t2).getD i [] ≠ []
            then [[' ']] else []) ++
          (if (strLines t2).getD i [] ≠ []
            then [(strLines t2).getD i []] else []) ++ [['\n']]) ∧
      ([' '] ∉ strLines t1 → [' '] ∉ strLines t2 →
        List.Chain' (fun a b => a = [' '] → b ≠ [' '] ∧ b ≠ ['\n'])
          (by_lines t1 t2)) :=
  ⟨byLinesGo_eq_range _ _ fun _ hl => mem_strLines_not_nl hl,
    fun h1 h2 => byLinesGo_sep _ _ h1 h2 fun _ hl => mem_strLines_not_nl hl⟩

/-- C6 witness: the separator invariant instantiated at concrete ragged
texts with an empty middle line. -/
theorem by_lines_emission_witness :
    ([' '] ∉ strLines "one\n\ntwo".toList) ∧
      ([' '] ∉ strLines "x\ny".toList) ∧
      List.Chain' (fun a b => a = [' '] → b ≠ [' '] ∧ b ≠ ['\n'])
        (by_lines "one\n\ntwo".toList "x\ny".toList) :=
  ⟨by decide, by decide,
    (by_lines_emission_and_no_double_space "one\n\ntwo".toList
      "x\ny".toList).2 (by decide) (by decide)⟩

/-! Range-indexed normal forms for the three- and four-text joins. -/

theorem byThreeGo_eq_range (fs : List (List Char)) :
    ∀ ss ts : List (List Char), (∀ l ∈ ss, '\n' ∉ l) →
      (∀ l ∈ ts, '\n' ∉ l) →
      byThreeGo fs ss ts = (List.range fs.length).flatMap fun i =>
        [fs.getD i []] ++
          (if fs.getD i [] ≠ [] ∧ ss.getD i [] ≠ [] then [[' ']] else []) ++
          (if ss.getD i [] ≠ [] then [ss.getD i []] else []) ++
          (if (fs.getD i [] ≠ [] ∨ ss.getD i [] ≠ []) ∧ ts.getD i [] ≠ []
            then [[' ']] else []) ++
          (if ts.getD i [] ≠ [] then [ts.getD i []] else []) ++ [['\n']] := by
  induction fs with
  | nil => intro ss ts _ _; simp [byThreeGo]
  | cons f fs ih =>
    intro ss ts h2 h3
    rw [List.length_cons, range_flatMap_succ]
    simp only [List.getD_cons_zero, List.getD_cons_succ]
    simp only [getD_succ_tail]
    rw [← ih ss.tail ts.tail (fun l hl => h2 l (List.mem_of_mem_tail hl))
      fun l hl => h3 l (List.mem_of_mem_tail hl)]
    have hs_nl : '\n' ∉ ss.headD [] := by
      cases ss with
      | nil => simp
      | cons s ss' => exact h2 s (List.mem_cons_self _ _)
    have ht_nl : '\n' ∉ ts.headD [] := by
      cases ts with
      | nil => simp
      | cons t ts' => exact h3 t (List.mem_cons_self _ _)
    simp only [byThreeGo]
    rw [strLines_nlfree hs_nl, strLines_nlfree ht_nl]
    simp only [← headD_eq_getD_zero, replicate_if_one, if_ne_comm]

theorem byFourGo_eq_range (fs : List (List Char)) :
    ∀ ss ts us : List (List Char), (∀ l ∈ ss, '\n' ∉ l) →
      (∀ l ∈ ts, '\n' ∉ l) → (∀ l ∈ us, '\n' ∉ l) →
      byFourGo fs ss ts us = (List.range fs.length).flatMap fun i =>
        [fs.getD i []] ++
          (if fs.getD i [] ≠ [] ∧ ss.getD i [] ≠ [] then [[' ']] else []) ++
          (if ss.getD i [] ≠ [] then [ss.getD i []] else []) ++
          (if (fs.getD i [] ≠ [] ∨ ss.getD i [] ≠ []) ∧ ts.getD i [] ≠ []
            then [[' ']] else []) ++
          (if ts.getD i [] ≠ [] then [ts.getD i []] else []) ++
          (if (fs.getD i [] ≠ [] ∨ ss.getD i [] ≠ [] ∨ ts.getD i [] ≠ []) ∧
              us.getD i [] ≠ [] then [[' ']] else []) ++
          (if us.getD i [] ≠ [] then [us.getD i []] else []) ++ [['\n']] := by
  induction fs with
  | nil => intro ss ts us _ _ _; simp [byFourGo]
  | cons f fs ih =>
    intro ss ts us h2 h3 h4
    rw [List.length_cons, range_flatMap_succ]
    simp only [List.getD_cons_zero, List.getD_cons_succ]
    simp only [getD_succ_tail]
    rw [← ih ss.tail ts.tail us.tail
      (fun l hl => h2 l (List.mem_of_mem_tail hl))
      (fun l hl => h3 l (List.mem_of_mem_tail hl))
      fun l hl => h4 l (List.mem_of_mem_tail hl)]
    have hs_nl : '\n' ∉ ss.headD [] := by
      cases ss with
      | nil => simp
      | cons s ss' => exact h2 s (List.mem_cons_self _ _)
    have ht_nl : '\n' ∉ ts.headD [] := by
      cases ts with
      | nil => simp
      | cons t ts' => exact h3 t (List.mem_cons_self _ _)
    have hu_nl : '\n' ∉ us.headD [] := by
      cases us with
      | nil => simp
      | cons u us' => exact h4 u (List.mem_cons_self _ _)
    simp only [byFourGo]
    rw [strLines_nlfree hs_nl, strLines_nlfree ht_nl, strLines_nlfree hu_nl]
    simp only [← headD_eq_getD_zero, replicate_if_one, if_ne_comm]

/-! Claim C8. -/

/-- C8: in `by_three_lines` and `by_four_lines`, for every line index
`i < n1` and every block after the first, one literal space is inserted
before that block's line exactly when the content assembled so far for the
output line is non-empty (some earlier block contributed a non-empty line)
and that block's line exists and is non-empty; otherwise the line is
appended with no leading space, and nothing is appended for an exhausted or
empty block.  In particular the three-way join of `one,two`, two empty
lines, and `primary,secondary` is `one primary`, `two secondary`. -/
theorem by_three_four_lines_space_rule :
    (∀ t1 t2 t3 : List Char,
      by_three_lines t1 t2 t3 =
        (List.range (strLines t1).length).flatMap fun i =>
          [(strLines t1).getD i []] ++
            (if (strLines t1).getD i [] ≠ [] ∧ (strLines t2).getD i [] ≠ []
              then [[' ']] else []) ++
            (if (strLines t2).getD i [] ≠ []
              then [(strLines t2).getD i []] else []) ++
            (if ((strLines t1).getD i [] ≠ [] ∨
                  (strLines t2).getD i [] ≠ []) ∧
                (strLines t3).getD i [] ≠ [] then [[' ']] else []) ++
            (if (strLines t3).getD i [] ≠ []
              then [(strLines t3).getD i []] else []) ++ [['\n']]) ∧
      (∀ t1 t2 t3 t4 : List Char,
        by_four_lines t1 t2 t3 t4 =
          (List.range (strLines t1).length).flatMap fun i =>
            [(strLines t1).getD i []] ++
              (if (strLines t1).getD i [] ≠ [] ∧ (strLines t2).getD i [] ≠ []
                then [[' ']] else []) ++
              (if (strLines t2).getD i [] ≠ []
                then [(strLines t2).getD i []] else []) ++
              (if ((strLines t1).getD i [] ≠ [] ∨
                    (strLines t2).getD i [] ≠ []) ∧
                  (strLines t3).getD i [] ≠ [] then [[' ']] else []) ++
              (if (strLines t3).getD i [] ≠ []
                then [(strLines t3).getD i []] else []) ++
              (if ((strLines t1).getD i [] ≠ [] ∨
                    (strLines t2).getD i [] ≠ [] ∨
                    (strLines t3).getD i [] ≠ []) ∧
                  (strLines t4).getD i [] ≠ [] then [[' ']] else []) ++
              (if (strLines t4).getD i [] ≠ []
                then [(strLines t4).getD i []] else []) ++ [['\n']]) ∧
      (by_three_lines "one\ntwo".toList "\n\n".toList
          "primary\nsecondary".toList).flatten =
        "one primary\ntwo secondary\n".toList :=
  ⟨fun t1 t2 t3 => byThreeGo_eq_range _ _ _
      (fun _ hl => mem_strLines_not_nl hl)
      fun _ hl => mem_strLines_not_nl hl,
    fun t1 t2 t3 t4 => byFourGo_eq_range _ _ _ _
      (fun _ hl => mem_strLines_not_nl hl)
      (fun _ hl => mem_strLines_not_nl hl)
      fun _ hl => mem_strLines_not_nl hl,
    by decide⟩

/-! Claims C9 and C10. -/

/-- C9: `cat_to_col` joins each paired line index with exactly one literal
space regardless of the content of either line, including empty lines, and
every leftover line from whichever text is longer is emitted as a plain
line-feed-terminated line with no separator or padding. -/
theorem cat_to_col_line_join_spec (t1 t2 : List Char) :
    cat_to_col t1 t2 =
      lockstep (fun a b => [a, [' '], b, ['\n']]) (fun a => [a, ['\n']])
        (fun a => [a, ['\n']]) (strLines t1) (strLines t2) :=
  cat_to_col_eq_catJoin t1 t2

/-- C10: every line's measured width is bounded by the maximum width of the
text it came from, under both the plain and the escape-aware measure, so
the unsigned subtractions `max_line_one - max_line_len(line)` in
`combine_col` and `max_line_one - max_line_len_no_esc(line)` in
`combine_col_esc` never underflow. -/
theorem padding_subtraction_no_underflow (t line : List Char)
    (h : line ∈ strLines t) :
    max_line_len line ≤ max_line_len t ∧
      max_line_len_no_esc line ≤ max_line_len_no_esc t := by
  constructor
  · rw [max_line_len_single (mem_strLines_not_nl h)]
    exact mem_strLines_length_le h
  · rw [max_line_len_no_esc_single (mem_strLines_not_nl h)]
    exact strip_line_length_le h

/-- C10 witness: the width bounds instantiated at the first line of a
concrete two-line text. -/
theorem padding_subtraction_no_underflow_witness :
    ['a', 'b'] ∈ strLines "ab\nc".toList ∧
      (max_line_len ['a', 'b'] ≤ max_line_len "ab\nc".toList ∧
        max_line_len_no_esc ['a', 'b'] ≤
          max_line_len_no_esc "ab\nc".toList) :=
  ⟨by decide, padding_subtraction_no_underflow "ab\nc".toList ['a', 'b']
    (by decide)⟩

/-! Fill-run extraction and per-line padding lists, for the
escape-transparency claim. -/

/-- Accumulate maximal runs of fragments equal to the one-character fill
string; `cur` is the length of the run in progress. -/
def fillRunsAux (fill : Char) : Nat → List (List Char) → List Nat
  | cur, [] => if cur = 0 then [] else [cur]
  | cur, f :: fs =>
      if f = [fill] then fillRunsAux fill (cur + 1) fs
      else if cur = 0 then fillRunsAux fill 0 fs
      else cur :: fillRunsAux fill 0 fs

/-- The list of lengths of the maximal runs of fill fragments in a fragment
sequence: the padding widths of a column-mode output. -/
def fillRuns (fill : Char) (frags : List (List Char)) : List Nat :=
  fillRunsAux fill 0 frags

/-- The per-output-line padding width of a column join: `maxw - w line1 +
rep` for a paired line, nothing for a block1 leftover, `maxw + rep` for a
block2 leftover. -/
def colPads (rep maxw : Nat) (w : List Char → Nat)
    (l1s l2s : List (List Char)) : List Nat :=
  lockstep (fun a _ => [(maxw - w a) + rep]) (fun _ => [])
    (fun _ => [maxw + rep]) l1s l2s

theorem fillRunsAux_replicate (fill : Char) (p : Nat) :
    ∀ (cur : Nat) (rest : List (List Char)),
      fillRunsAux fill cur (List.replicate p [fill] ++ rest) =
        fillRunsAux fill (cur + p) rest := by
  induction p with
  | zero => intro cur rest; simp
  | succ p ih =>
    intro cur rest
    rw [List.replicate_succ, List.cons_append, fillRunsAux, if_pos rfl,
      ih (cur + 1) rest]
    congr 1
    omega

theorem fillRunsAux_cons_ne {fill : Char} {f : List Char} (hf : f ≠ [fill])
    (cur : Nat) (rest : List (List Char)) :
    fillRunsAux fill cur (f :: rest) =
      (if cur = 0 then [] else [cur]) ++ fillRunsAux fill 0 rest := by
  rw [fillRunsAux, if_neg hf]
  by_cases hc : cur = 0 <;> simp [hc]

theorem singleton_nl_ne_fill {fill : Char} (hf : fill ≠ '\n') :
    (['\n'] : List Char) ≠ [fill] := by
  intro h
  simp only [List.cons.injEq, and_true] at h
  exact hf h.symm

theorem fillRuns_colJoin (fill : Char) (rep maxw : Nat)
    (w : List Char → Nat) (l1s : List (List Char)) :
    ∀ l2s : List (List Char), (∀ l ∈ l1s, l ≠ [fill]) →
      (∀ l ∈ l2s, l ≠ [fill]) → fill ≠ '\n' →
      fillRuns fill (colJoin fill rep maxw w l1s l2s) =
        (colPads rep maxw w l1s l2s).filter fun n => n != 0 := by
  induction l1s with
  | nil =>
    intro l2s h1 h2 hf
    induction l2s with
    | nil => simp [colJoin, lockstep, colPads, fillRuns, fillRunsAux]
    | cons b bs ihb =>
      have hb : b ≠ [fill] := h2 b (List.mem_cons_self _ _)
      rw [colJoin, lockstep, colPads, lockstep]
      simp only [colLeftBlock]
      rw [fillRuns, List.append_assoc, fillRunsAux_replicate, Nat.zero_add]
      simp only [List.cons_append, List.singleton_append]
      rw [fillRunsAux_cons_ne hb,
        fillRunsAux_cons_ne (singleton_nl_ne_fill hf)]
      rw [← colJoin, ← colPads] at *
      simp only [List.nil_append]
      rw [← fillRuns, ihb fun l hl => h2 l (List.mem_cons_of_mem _ hl)]
      simp only [List.filter_cons, List.nil_append]
      by_cases hz : maxw + rep = 0 <;> simp [hz]
  | cons a as ih =>
    intro l2s h1 h2 hf
    have ha : a ≠ [fill] := h1 a (List.mem_cons_self _ _)
    have h1' : ∀ l ∈ as, l ≠ [fill] :=
      fun l hl => h1 l (List.mem_cons_of_mem _ hl)
    cases l2s with
    | nil =>
      rw [colJoin, lockstep, colPads, lockstep]
      simp only [bareBlock, List.cons_append, List.nil_append,
        List.singleton_append, List.append_assoc]
      rw [← colJoin, ← colPads]
      rw [fillRuns, fillRunsAux_cons_ne ha,
        fillRunsAux_cons_ne (singleton_nl_ne_fill hf)]
      rw [← fillRuns,
        ih [] h1' (fun l hl => absurd hl (List.not_mem_nil l)) hf]
      simp
    | cons b bs =>
      have hb : b ≠ [fill] := h2 b (List.mem_cons_self _ _)
      rw [colJoin, lockstep, colPads, lockstep]
      simp only [colPairBlock, List.cons_append, List.nil_append,
        List.singleton_append, List.append_assoc]
      rw [← colJoin, ← colPads]
      rw [fillRuns, fillRunsAux_cons_ne ha]
      simp only [if_pos rfl, List.nil_append]
      rw [fillRunsAux_replicate, Nat.zero_add, fillRunsAux_cons_ne hb,
        fillRunsAux_cons_ne (singleton_nl_ne_fill hf)]
      rw [← fillRuns,
        ih bs h1' (fun l hl => h2 l (List.mem_cons_of_mem _ hl)) hf]
      simp only [List.filter_cons, List.singleton_append, List.nil_append]
      by_cases hz : (maxw - w a) + rep = 0 <;> simp [hz]

theorem colPads_nil_right (rep maxw : Nat) (w : List Char → Nat)
    (l1s : List (List Char)) : colPads rep maxw w l1s [] = [] := by
  rw [colPads, lockstep_nil_right]
  induction l1s with
  | nil => rfl
  | cons a as ih => simp [ih]

theorem colPads_append_zero (rep maxw : Nat) (w : List Char → Nat)
    {z : List Char} (hz : w z = 0) (l1s : List (List Char)) :
    ∀ l2s : List (List Char),
      colPads rep maxw w (l1s ++ [z]) l2s = colPads rep maxw w l1s l2s := by
  induction l1s with
  | nil =>
    intro l2s
    cases l2s with
    | nil => rw [colPads_nil_right, colPads_nil_right]
    | cons b bs => simp [colPads, lockstep, hz]
  | cons a as ih =>
    intro l2s
    cases l2s with
    | nil => rw [colPads_nil_right, colPads_nil_right]
    | cons b bs =>
      simp only [List.cons_append, colPads, lockstep]
      have h := ih bs
      simp only [colPads] at h
      rw [h]

theorem colPads_map (rep maxw : Nat) (w : List Char → Nat)
    (g : List Char → List Char) (l1s : List (List Char)) :
    ∀ l2s : List (List Char),
      colPads rep maxw w (l1s.map g) l2s =
        colPads rep maxw (fun a => w (g a)) l1s l2s := by
  induction l1s with
  | nil =>
    intro l2s
    rw [colPads, colPads, List.map_nil, lockstep_nil_left,
      lockstep_nil_left]
  | cons a as ih =>
    intro l2s
    cases l2s with
    | nil => rw [colPads_nil_right, colPads_nil_right]
    | cons b bs =>
      simp only [List.map_cons, colPads, lockstep]
      have h := ih bs
      simp only [colPads] at h
      rw [h]

theorem mem_strLines_strip {t1 l : List Char}
    (h : l ∈ strLines (strip t1)) : ∃ l0 ∈ strLines t1, l = strip l0 := by
  rcases strLines_strip_cases t1 with hc | hc
  · rw [hc] at h
    rcases List.mem_map.mp h with ⟨l0, hl0, he⟩
    exact ⟨l0, hl0, he.symm⟩
  · have hm : l ∈ (strLines t1).map strip := by
      rw [hc]
      exact List.mem_append_left _ h
    rcases List.mem_map.mp hm with ⟨l0, hl0, he⟩
    exact ⟨l0, hl0, he.symm⟩

theorem colPads_esc_eq (t1 : List Char) (rep maxw : Nat)
    (l2s : List (List Char)) :
    colPads rep maxw (fun l => (strip l).length) (strLines t1) l2s =
      colPads rep maxw List.length (strLines (strip t1)) l2s := by
  rcases strLines_strip_cases t1 with hc | hc
  · rw [hc, colPads_map]
  · rw [show strLines (strip t1) ++ [[]] =
        strLines (strip t1) ++ [([] : List Char)] from rfl] at hc
    rw [← colPads_map rep maxw List.length strip (strLines t1) l2s, hc,
      colPads_append_zero rep maxw List.length (by simp) (strLines (strip t1))
        l2s]

theorem mem_colJoin_left {fill : Char} {rep maxw : Nat}
    {w : List Char → Nat} {l1s : List (List Char)} :
    ∀ (l2s : List (List Char)) (l : List Char), l ∈ l1s →
      l ∈ colJoin fill rep maxw w l1s l2s := by
  induction l1s with
  | nil => intro l2s l h; exact absurd h (List.not_mem_nil l)
  | cons a as ih =>
    intro l2s l h
    cases l2s with
    | nil =>
      rw [colJoin, lockstep, ← colJoin]
      rcases List.mem_cons.mp h with h | h
      · subst h; exact List.mem_append_left _ (by simp [bareBlock])
      · exact List.mem_append_right _ (ih [] l h)
    | cons b bs =>
      rw [colJoin, lockstep, ← colJoin]
      rcases List.mem_cons.mp h with h | h
      · subst h; exact List.mem_append_left _ (by simp [colPairBlock])
      · exact List.mem_append_right _ (ih bs l h)

theorem mem_colJoin_right {fill : Char} {rep maxw : Nat}
    {w : List Char → Nat} {l1s : List (List Char)} :
    ∀ (l2s : List (List Char)) (l : List Char), l ∈ l2s →
      l ∈ colJoin fill rep maxw w l1s l2s := by
  induction l1s with
  | nil =>
    intro l2s l
    induction l2s with
    | nil => intro h; exact absurd h (List.not_mem_nil l)
    | cons b bs ihb =>
      intro h
      rw [colJoin, lockstep, ← colJoin]
      rcases List.mem_cons.mp h with h | h
      · subst h; exact List.mem_append_left _ (by simp [colLeftBlock])
      · exact List.mem_append_right _ (ihb h)
  | cons a as ih =>
    intro l2s l h
    cases l2s with
    | nil => exact absurd h (List.not_mem_nil l)
    | cons b bs =>
      rw [colJoin, lockstep, ← colJoin]
      rcases List.mem_cons.mp h with h | h
      · subst h; exact List.mem_append_left _ (by simp [colPairBlock])
      · exact List.mem_append_right _ (ih bs l h)

/-! Claim C3. -/

/-- C3 counterexample: the first text contains an escape sequence, yet the
padding-width sequence of `combine_col_esc` differs from that of
`combine_col` on the stripped texts, because stripping the second text
removes its trailing escape-only line and changes the pairing: the
escape-aware run lengths are `[2, 1]` while the stripped-text run lengths
are `[2]`. -/
theorem combine_col_esc_transparency_claim_false :
    ('\x1b' ∈ "\x1b[33ma\nbb".toList) ∧
      fillRuns ' ' ((CatToCol.mk ' ' 1).combine_col_esc
          "\x1b[33ma\nbb".toList "x\n\x1b[0m".toList) ≠
        fillRuns ' ' ((CatToCol.mk ' ' 1).combine_col
          (strip "\x1b[33ma\nbb".toList) (strip "x\n\x1b[0m".toList)) := by
  decide

/-- C3 (amended): provided stripping does not change the second text
(`strip t2 = t2`, e.g. the second text carries no escape sequences), and
under the fill-character hygiene needed to read runs off the fragment
stream (the fill is not a line feed and no input or stripped line is
exactly the one-character fill string), `combine_col_esc` produces exactly
the same sequence of fill-run lengths as `combine_col` on the stripped
texts, while every line of both input texts, escape codes included, occurs
verbatim as a fragment of the escape-aware output. -/
theorem combine_col_esc_escape_transparency (self : CatToCol)
    (t1 t2 : List Char) (h2s : strip t2 = t2) (hf : self.fill ≠ '\n')
    (h1f : ∀ l ∈ strLines t1, l ≠ [self.fill])
    (h1fs : ∀ l ∈ strLines t1, strip l ≠ [self.fill])
    (h2f : ∀ l ∈ strLines t2, l ≠ [self.fill]) :
    fillRuns self.fill (self.combine_col_esc t1 t2) =
        fillRuns self.fill (self.combine_col (strip t1) (strip t2)) ∧
      (∀ l ∈ strLines t1, l ∈ self.combine_col_esc t1 t2) ∧
      (∀ l ∈ strLines t2, l ∈ self.combine_col_esc t1 t2) := by
  refine ⟨?_, ?_, ?_⟩
  · rw [combine_col_esc_eq_colJoin_striplen, combine_col_eq_colJoin_len,
      h2s]
    have hmax : max_line_len (strip t1) = max_line_len_no_esc t1 := rfl
    rw [hmax]
    have hp1 : ∀ l ∈ strLines (strip t1), l ≠ [self.fill] := by
      intro l hl
      rcases mem_strLines_strip hl with ⟨l0, hl0, he⟩
      rw [he]
      exact h1fs l0 hl0
    rw [fillRuns_colJoin self.fill self.repeatCount (max_line_len_no_esc t1)
        (fun l => (strip l).length) (strLines t1) (strLines t2) h1f h2f hf,
      fillRuns_colJoin self.fill self.repeatCount (max_line_len_no_esc t1)
        List.length (strLines (strip t1)) (strLines t2) hp1 h2f hf]
    exact congrArg _ (colPads_esc_eq t1 self.repeatCount
      (max_line_len_no_esc t1) (strLines t2))
  · intro l hl
    rw [combine_col_esc_eq_colJoin]
    exact mem_colJoin_left _ _ hl
  · intro l hl
    rw [combine_col_esc_eq_colJoin]
    exact mem_colJoin_right _ _ hl

/-- C3 witness: the amended escape-transparency statement instantiated at a
colored first text and an escape-free second text. -/
theorem combine_col_esc_escape_transparency_witness :
    strip "x\ny".toList = "x\ny".toList ∧
      ((CatToCol.mk ' ' 1).fill ≠ '\n' ∧
        (∀ l ∈ strLines "\x1b[33mab\ncde".toList,
          l ≠ [(CatToCol.mk ' ' 1).fill]) ∧
        (∀ l ∈ strLines "\x1b[33mab\ncde".toList,
          strip l ≠ [(CatToCol.mk ' ' 1).fill]) ∧
        (∀ l ∈ strLines "x\ny".toList, l ≠ [(CatToCol.mk ' ' 1).fill])) ∧
      (fillRuns (CatToCol.mk ' ' 1).fill
          ((CatToCol.mk ' ' 1).combine_col_esc "\x1b[33mab\ncde".toList
            "x\ny".toList) =
        fillRuns (CatToCol.mk ' ' 1).fill
          ((CatToCol.mk ' ' 1).combine_col
            (strip "\x1b[33mab\ncde".toList) (strip "x\ny".toList)) ∧
        (∀ l ∈ strLines "\x1b[33mab\ncde".toList,
          l ∈ (CatToCol.mk ' ' 1).combine_col_esc "\x1b[33mab\ncde".toList
            "x\ny".toList) ∧
        (∀ l ∈ strLines "x\ny".toList,
          l ∈ (CatToCol.mk ' ' 1).combine_col_esc "\x1b[33mab\ncde".toList
            "x\ny".toList)) :=
  ⟨by decide, ⟨by decide, by decide, by decide, by decide⟩,
    combine_col_esc_escape_transparency (CatToCol.mk ' ' 1)
      "\x1b[33mab\ncde".toList "x\ny".toList (by decide) (by decide)
      (by decide) (by decide) (by decide)⟩
